import Mathlib

/-!
Shallow embedding of the `cache_cache` crate (`src/lib.rs`): an in-memory
key-value cache with optional time-based expiry, a single-key entry view and a
batch entries view.

Modelling conventions:
* `HashMap<K, (V, SystemTime)>` becomes an association list `List (K × V × Nat)`
  with overwrite-on-insert semantics (`mapInsert` keeps at most one binding per
  key; `mapLookup` returns the binding when present). Timestamps are `Nat`.
* Every operation that reads the clock takes an explicit `now : Nat`;
  `t.elapsed()` becomes `now - t` (truncated subtraction; clock roll-back is out
  of scope, matching the crate's assumption of non-decreasing elapsed time).
* Rust panics (`unwrap`, `expect`, `assert_eq!`, `HashMap` indexing `values[k]`)
  are modelled as the `none` outcome of an `Option`-valued result.
* Fallible producers return `Except E _`, modelling `Result<_, Box<dyn Error>>`
  with an opaque error type `E`.
* Producer invocations are recorded in an explicit trace: the list of argument
  values the producer was called with, in call order. "The producer is invoked
  exactly once with `xs`" is the statement `trace = [xs]`; "never invoked" is
  `trace = []`.
-/

universe u v w

variable {K : Type u} {V : Type v} {E : Type w}

/-- Lookup in the model of `HashMap<K, (V, SystemTime)>`. -/
def mapLookup [DecidableEq K] : List (K × V × Nat) → K → Option (V × Nat)
  | [], _ => none
  | (k', v, t) :: rest, k => if k' = k then some (v, t) else mapLookup rest k

/-- Insert (overwrite) in the model of `HashMap<K, (V, SystemTime)>`. -/
def mapInsert [DecidableEq K] : List (K × V × Nat) → K → V × Nat → List (K × V × Nat)
  | [], k, vt => [(k, vt.1, vt.2)]
  | (k', v', t') :: rest, k, vt =>
    if k' = k then (k, vt.1, vt.2) :: rest else (k', v', t') :: mapInsert rest k vt

/-- Lookup in the model of the local `values: HashMap<&K, V>` used by
`Entries::or_try_insert_with`. -/
def vLookup [DecidableEq K] : List (K × V) → K → Option V
  | [], _ => none
  | (k', v) :: rest, k => if k' = k then some v else vLookup rest k

/-- Insert (overwrite) in the model of the local `values: HashMap<&K, V>`. -/
def vInsert [DecidableEq K] : List (K × V) → K → V → List (K × V)
  | [], k, v => [(k, v)]
  | (k', v') :: rest, k, v =>
    if k' = k then (k, v) :: rest else (k', v') :: vInsert rest k v

/-- The cache: `struct Cache<K, V> { hash_map: HashMap<K, (V, SystemTime)>,
expiry_duration: Option<Duration> }`. -/
structure Cache (K : Type u) (V : Type v) where
  hash_map : List (K × V × Nat)
  expiry_duration : Option Nat
deriving Repr, DecidableEq

/-- `Cache::keep_last()`: empty cache, no expiry. -/
def Cache.keep_last : Cache K V :=
  { hash_map := [], expiry_duration := none }

/-- `Cache::with_expiry_duration(duration)`: empty cache with an expiry
duration. -/
def Cache.with_expiry_duration (duration : Nat) : Cache K V :=
  { hash_map := [], expiry_duration := some duration }

/-- `Cache::has_expired`: `Some(expiry) => t.elapsed().unwrap() > expiry,
None => false`, with `t.elapsed()` modelled as `now - t`. -/
def Cache.has_expired (expiry_duration : Option Nat) (now t : Nat) : Bool :=
  match expiry_duration with
  | some expiry => now - t > expiry
  | none => false

/-- `Cache::get`: returns the value only if present and not expired. -/
def Cache.get [DecidableEq K] (c : Cache K V) (now : Nat) (k : K) : Option V :=
  match mapLookup c.hash_map k with
  | some (v, t) =>
    match Cache.has_expired c.expiry_duration now t with
    | true => none
    | false => some v
  | none => none

/-- `Cache::get_mut`: same freshness rule as `get`; the returned mutable
reference is modelled by the value itself. -/
def Cache.get_mut [DecidableEq K] (c : Cache K V) (now : Nat) (k : K) : Option V :=
  match mapLookup c.hash_map k with
  | some (v, t) =>
    match Cache.has_expired c.expiry_duration now t with
    | true => none
    | false => some v
  | none => none

/-- `Cache::insert`: stores `(v, now)` and returns the previous value
(expired or not) together with the updated cache. -/
def Cache.insert [DecidableEq K] (c : Cache K V) (now : Nat) (k : K) (v : V) :
    Option V × Cache K V :=
  ((mapLookup c.hash_map k).map (fun vt => vt.1),
   { hash_map := mapInsert c.hash_map k (v, now),
     expiry_duration := c.expiry_duration })

/-- `Index::index` for `Cache`: `self.get(index).expect("no entry found for
key")`. The `none` outcome models the panic. -/
def Cache.index [DecidableEq K] (c : Cache K V) (now : Nat) (k : K) : Option V :=
  c.get now k

/-- The `Entry` enum: a view into a single entry, occupied (fresh, holding the
value behind the mutable reference) or vacant. -/
inductive Entry (K : Type u) (V : Type v) where
  | Occupied (k : K) (v : V)
  | Vacant (k : K)
deriving Repr, DecidableEq

/-- `Cache::entry`: classifies the key by `get` and, when fresh, fetches the
mutable reference with `get_mut(...).unwrap()`. The two clock reads are the
two `now` parameters; the `none` outcome models the `unwrap` panic. -/
def Cache.entry [DecidableEq K] (c : Cache K V) (now1 now2 : Nat) (k : K) :
    Option (Entry K V) :=
  if (c.get now1 k).isSome then
    match c.get_mut now2 k with
    | some v => some (Entry.Occupied k v)
    | none => none
  else some (Entry.Vacant k)

/-- `VacantEntry::insert`: `self.cache.insert(self.k.clone(), v);
self.cache.get_mut(&self.k).unwrap()`. Returns the reference (modelled by the
value) and the updated cache; `none` models the `unwrap` panic. -/
def VacantEntry.insert [DecidableEq K] (c : Cache K V) (now : Nat) (k : K) (v : V) :
    Option (V × Cache K V) :=
  match ((c.insert now k v).2.get_mut now k) with
  | some v' => some (v', (c.insert now k v).2)
  | none => none

/-- `Entry::or_insert`: existing value for an occupied entry, insert the
default for a vacant one. `none` models a panic inside `entry` or the vacant
insert. -/
def Entry.or_insert [DecidableEq K] (c : Cache K V) (now : Nat) (k : K)
    (default : V) : Option (V × Cache K V) :=
  match c.entry now now k with
  | some (Entry.Occupied _ v) => some (v, c)
  | some (Entry.Vacant _) => VacantEntry.insert c now k default
  | none => none

/-- `Entry::or_insert_with`: like `or_insert` but the default is produced by
`default(&k)`; the second component is the trace of the producer's
invocations. -/
def Entry.or_insert_with [DecidableEq K] (c : Cache K V) (now : Nat) (k : K)
    (default : K → V) : Option (V × Cache K V) × List K :=
  match c.entry now now k with
  | some (Entry.Occupied _ v) => (some (v, c), [])
  | some (Entry.Vacant _) => (VacantEntry.insert c now k (default k), [k])
  | none => (none, [])

/-- `Entry::or_try_insert_with`: fallible producer; on `Ok(v)` the vacant
entry inserts `v`, on `Err(e)` the error is returned and the cache is the one
the view was holding, untouched. The second component is the invocation
trace. -/
def Entry.or_try_insert_with [DecidableEq K] (c : Cache K V) (now : Nat) (k : K)
    (default : K → Except E V) :
    Option (Except E V × Cache K V) × List K :=
  match c.entry now now k with
  | some (Entry.Occupied _ v) => (some (Except.ok v, c), [])
  | some (Entry.Vacant _) =>
    match default k with
    | Except.ok v =>
      ((VacantEntry.insert c now k v).map (fun p => (Except.ok p.1, p.2)), [k])
    | Except.error e => (some (Except.error e, c), [k])
  | none => (none, [])

/-- The partition loop of `Entries::or_try_insert_with`: for each requested key
in order, a fresh key's value goes into the local `values` map and a vacant
key is pushed (once per occurrence) onto `missing`. -/
def partitionAux [DecidableEq K] (c : Cache K V) (now : Nat) :
    List K → List (K × V) → List K → List (K × V) × List K
  | [], values, missing => (values, missing)
  | k :: ks, values, missing =>
    match c.get now k with
    | some v => partitionAux c now ks (vInsert values k v) missing
    | none => partitionAux c now ks values (missing ++ [k])

/-- Partition of the requested keys into the fresh-value map and the missing
list, computed entirely from the cache state before any refresh. -/
def partitionKeys [DecidableEq K] (c : Cache K V) (now : Nat) (keys : List K) :
    List (K × V) × List K :=
  partitionAux c now keys [] []

/-- The missing-key list the batch producer would receive. -/
def missingOf [DecidableEq K] (c : Cache K V) (now : Nat) (keys : List K) : List K :=
  (partitionKeys c now keys).2

/-- The final read-only pass `self.keys.iter().map(|k| values[k]).collect()`:
`none` models the `values[k]` indexing panic on an absent key. -/
def collectValues [DecidableEq K] (values : List (K × V)) : List K → Option (List V)
  | [] => some []
  | k :: ks =>
    match vLookup values k with
    | some v => (collectValues values ks).map (fun out => v :: out)
    | none => none

/-- The merge loop of `Entries::or_try_insert_with`: each `(k, v)` pair of
`missing.iter().zip(missing_values)` is inserted into the cache and into the
local `values` map. -/
def mergeMissing [DecidableEq K] (c : Cache K V) (now : Nat)
    (pairs : List (K × V)) (values : List (K × V)) : Cache K V × List (K × V) :=
  pairs.foldl (fun acc p => ((acc.1.insert now p.1 p.2).2, vInsert acc.2 p.1 p.2))
    (c, values)

/-- `Entries::or_try_insert_with`: partition, invoke the producer once on the
missing list when it is non-empty, `assert_eq!` the lengths (`none` models the
panic), merge, and collect the output in the caller's key order. The second
component is the producer invocation trace. -/
def Entries.or_try_insert_with [DecidableEq K] (c : Cache K V) (now : Nat)
    (keys : List K) (default : List K → Except E (List V)) :
    Option (Except E (List V) × Cache K V) × List (List K) :=
  let p := partitionKeys c now keys
  if p.2.isEmpty then
    match collectValues p.1 keys with
    | some out => (some (Except.ok out, c), [])
    | none => (none, [])
  else
    match default p.2 with
    | Except.error e => (some (Except.error e, c), [p.2])
    | Except.ok missing_values =>
      if p.2.length = missing_values.length then
        match collectValues (mergeMissing c now (p.2.zip missing_values) p.1).2 keys with
        | some out =>
          (some (Except.ok out, (mergeMissing c now (p.2.zip missing_values) p.1).1), [p.2])
        | none => (none, [p.2])
      else (none, [p.2])

/-! ### Basic lemmas about the map model and the read operations -/

theorem get_mut_eq_get [DecidableEq K] (c : Cache K V) (now : Nat) (k : K) :
    c.get_mut now k = c.get now k := rfl

theorem mapLookup_mapInsert [DecidableEq K] (m : List (K × V × Nat)) (k k' : K)
    (vt : V × Nat) :
    mapLookup (mapInsert m k vt) k' = if k = k' then some vt else mapLookup m k' := by
  induction m with
  | nil => by_cases h : k = k' <;> simp [mapInsert, mapLookup, h]
  | cons p rest ih =>
    obtain ⟨k₁, v₁, t₁⟩ := p
    by_cases h₁ : k₁ = k
    · subst h₁
      by_cases h₂ : k₁ = k' <;> simp [mapInsert, mapLookup, h₂]
    · by_cases h₂ : k₁ = k'
      · subst h₂
        have h₃ : ¬k = k₁ := fun h => h₁ h.symm
        simp [mapInsert, mapLookup, h₁, h₃]
      · simp [mapInsert, mapLookup, h₁, h₂, ih]

theorem vLookup_vInsert [DecidableEq K] (vs : List (K × V)) (k k' : K) (v : V) :
    vLookup (vInsert vs k v) k' = if k = k' then some v else vLookup vs k' := by
  induction vs with
  | nil => by_cases h : k = k' <;> simp [vInsert, vLookup, h]
  | cons p rest ih =>
    obtain ⟨k₁, v₁⟩ := p
    by_cases h₁ : k₁ = k
    · subst h₁
      by_cases h₂ : k₁ = k' <;> simp [vInsert, vLookup, h₂]
    · by_cases h₂ : k₁ = k'
      · subst h₂
        have h₃ : ¬k = k₁ := fun h => h₁ h.symm
        simp [vInsert, vLookup, h₁, h₃]
      · simp [vInsert, vLookup, h₁, h₂, ih]

theorem has_expired_eq_true_iff (ed : Option Nat) (now t : Nat) :
    Cache.has_expired ed now t = true ↔ ∃ d, ed = some d ∧ now - t > d := by
  cases ed <;> simp [Cache.has_expired]

theorem get_eq_some_iff [DecidableEq K] (c : Cache K V) (now : Nat) (k : K) (v : V) :
    c.get now k = some v ↔
      ∃ t, mapLookup c.hash_map k = some (v, t) ∧
        Cache.has_expired c.expiry_duration now t = false := by
  cases hm : mapLookup c.hash_map k with
  | none => simp [Cache.get, hm]
  | some vt =>
    obtain ⟨v', t⟩ := vt
    cases he : Cache.has_expired c.expiry_duration now t with
    | true =>
      simp only [Cache.get, hm, he]
      constructor
      · intro h
        exact Option.noConfusion h
      · rintro ⟨t', ht', hf⟩
        simp only [Option.some.injEq, Prod.mk.injEq] at ht'
        obtain ⟨h₁, rfl⟩ := ht'
        rw [he] at hf
        exact Bool.noConfusion hf
    | false =>
      simp only [Cache.get, hm, he]
      constructor
      · intro h
        simp only [Option.some.injEq] at h
        exact ⟨t, by rw [h], he⟩
      · rintro ⟨t', ht', _⟩
        simp only [Option.some.injEq, Prod.mk.injEq] at ht'
        rw [ht'.1]

theorem get_eq_none_iff [DecidableEq K] (c : Cache K V) (now : Nat) (k : K) :
    c.get now k = none ↔
      (mapLookup c.hash_map k = none ∨
        ∃ v t, mapLookup c.hash_map k = some (v, t) ∧
          Cache.has_expired c.expiry_duration now t = true) := by
  cases hm : mapLookup c.hash_map k with
  | none => simp [Cache.get, hm]
  | some vt =>
    obtain ⟨v', t⟩ := vt
    cases he : Cache.has_expired c.expiry_duration now t with
    | true =>
      simp only [Cache.get, hm, he]
      simp only [Option.some.injEq, Prod.mk.injEq]
      constructor
      · intro _
        exact Or.inr ⟨v', t, ⟨rfl, rfl⟩, he⟩
      · intro _
        trivial
    | false =>
      simp only [Cache.get, hm, he]
      constructor
      · intro h
        exact Option.noConfusion h
      · rintro (h | ⟨v'', t', ht', hf⟩)
        · exact Option.noConfusion h
        · simp only [Option.some.injEq, Prod.mk.injEq] at ht'
          obtain ⟨rfl, rfl⟩ := ht'
          rw [he] at hf
          exact Bool.noConfusion hf

/-! ### Sample caches used by the concrete witnesses -/

/-- Sample cache `{1 ↦ (5, t = 0)}` with no expiry. -/
def sampleKeepLast : Cache Nat Nat :=
  ((Cache.keep_last).insert 0 1 5).2

/-- Sample cache `{1 ↦ (5, t = 0)}` with expiry duration 10. -/
def sampleExpiring : Cache Nat Nat :=
  ((Cache.with_expiry_duration 10).insert 0 1 5).2

/-! ### Store operations: `insert`, `get`, indexed access -/

/-- C5: `insert` stores `v` under `k` with the freshly captured timestamp
`now`, returns the previous value whenever `k` was physically present (even if
expired) and `none` when absent, and leaves every other key's value and
timestamp untouched. `get`/`get_mut` take the cache without returning a
modified one (mirroring `&self`), so `insert` is the only operation in this
development that writes a timestamp. -/
theorem insert_spec [DecidableEq K] (c : Cache K V) (now : Nat) (k k' : K) (v : V)
    (h : k' ≠ k) :
    (c.insert now k v).1 = (mapLookup c.hash_map k).map (fun p => p.1) ∧
    mapLookup (c.insert now k v).2.hash_map k = some (v, now) ∧
    mapLookup (c.insert now k v).2.hash_map k' = mapLookup c.hash_map k' ∧
    (c.insert now k v).2.expiry_duration = c.expiry_duration := by
  refine ⟨rfl, ?_, ?_, rfl⟩
  · simp [Cache.insert, mapLookup_mapInsert]
  · simp [Cache.insert, mapLookup_mapInsert, Ne.symm h]

/-- Witness for `insert_spec`: overwriting the expired entry `1 ↦ (5, t = 0)`
at `now = 100` still reports `5` as the previous value. -/
theorem insert_spec_witness :
    (sampleExpiring.insert 100 1 7).1 =
      (mapLookup sampleExpiring.hash_map 1).map (fun p => p.1) ∧
    mapLookup (sampleExpiring.insert 100 1 7).2.hash_map 1 = some (7, 100) ∧
    mapLookup (sampleExpiring.insert 100 1 7).2.hash_map 2 =
      mapLookup sampleExpiring.hash_map 2 ∧
    (sampleExpiring.insert 100 1 7).2.expiry_duration =
      sampleExpiring.expiry_duration :=
  insert_spec sampleExpiring 100 1 2 7 (by decide)

/-- C8: `get` returns a value exactly when the key is physically present and
not expired, where a timestamp `t` is expired exactly when the policy is
`some d` and `now - t > d` holds strictly. `get` takes the cache by shared
reference and returns no modified cache, so it cannot evict or touch a
timestamp. -/
theorem get_spec [DecidableEq K] (c : Cache K V) (now : Nat) (k : K) (v : V) :
    c.get now k = some v ↔
      ∃ t, mapLookup c.hash_map k = some (v, t) ∧
        ¬∃ d, c.expiry_duration = some d ∧ now - t > d := by
  simp only [get_eq_some_iff, ← has_expired_eq_true_iff, Bool.not_eq_true]

/-- C9: indexed access `store[k]` returns exactly what `get` returns when the
key is fresh, and panics (the `none` outcome) exactly when the key is absent
or expired, i.e. exactly when `get` would return `none`. -/
theorem index_spec [DecidableEq K] (c : Cache K V) (now : Nat) (k : K) :
    (∀ v, c.index now k = some v ↔ c.get now k = some v) ∧
    (c.index now k = none ↔
      (mapLookup c.hash_map k = none ∨
        ∃ v t, mapLookup c.hash_map k = some (v, t) ∧
          Cache.has_expired c.expiry_duration now t = true)) :=
  ⟨fun _ => Iff.rfl, get_eq_none_iff c now k⟩

/-! ### Single-key entry view -/

theorem entry_of_get_some [DecidableEq K] {c : Cache K V} {now : Nat} {k : K}
    {v : V} (h : c.get now k = some v) :
    c.entry now now k = some (Entry.Occupied k v) := by
  simp [Cache.entry, get_mut_eq_get, h]

theorem entry_of_get_none [DecidableEq K] {c : Cache K V} {now : Nat} {k : K}
    (h : c.get now k = none) :
    c.entry now now k = some (Entry.Vacant k) := by
  simp [Cache.entry, h]

theorem vacantEntry_insert_eq [DecidableEq K] (c : Cache K V) (now : Nat)
    (k : K) (v : V) :
    VacantEntry.insert c now k v = some (v, (c.insert now k v).2) := by
  have hl : mapLookup (c.insert now k v).2.hash_map k = some (v, now) := by
    simp [Cache.insert, mapLookup_mapInsert]
  have hx : Cache.has_expired (c.insert now k v).2.expiry_duration now now = false := by
    cases hd : (c.insert now k v).2.expiry_duration with
    | none => simp [Cache.has_expired]
    | some d => simp [Cache.has_expired, Nat.sub_self]
  simp [VacantEntry.insert, Cache.get_mut, hl, hx]

/-- C6: when `k` is fresh with value `v`, `entry` yields an Occupied view, and
`or_insert`, `or_insert_with` and `or_try_insert_with` all short-circuit:
they return the existing value with the cache unchanged and never invoke the
producer (empty invocation trace). -/
theorem entry_occupied_short_circuit [DecidableEq K] (c : Cache K V) (now : Nat)
    (k : K) (v d : V) (f : K → V) (g : K → Except E V)
    (h : c.get now k = some v) :
    c.entry now now k = some (Entry.Occupied k v) ∧
    Entry.or_insert c now k d = some (v, c) ∧
    Entry.or_insert_with c now k f = (some (v, c), []) ∧
    Entry.or_try_insert_with c now k g = (some (Except.ok v, c), []) := by
  have he := entry_of_get_some h
  exact ⟨he, by simp [Entry.or_insert, he], by simp [Entry.or_insert_with, he],
    by simp [Entry.or_try_insert_with, he]⟩

/-- Witness for `entry_occupied_short_circuit` on the fresh entry `1 ↦ 5`. -/
theorem entry_occupied_short_circuit_witness :
    sampleKeepLast.entry 0 0 1 = some (Entry.Occupied 1 5) ∧
    Entry.or_insert sampleKeepLast 0 1 9 = some (5, sampleKeepLast) ∧
    Entry.or_insert_with sampleKeepLast 0 1 (fun n => n + 1) =
      (some (5, sampleKeepLast), []) ∧
    Entry.or_try_insert_with (E := Unit) sampleKeepLast 0 1
        (fun _ => Except.error ()) =
      (some (Except.ok 5, sampleKeepLast), []) :=
  entry_occupied_short_circuit sampleKeepLast 0 1 5 9 (fun n => n + 1)
    (fun _ => Except.error ()) (by decide)

/-- C7: when `k` is vacant, `or_try_insert_with` invokes the producer exactly
once with `k`; on `Ok(v)` the value `v` is inserted under `k` (timestamp
`now`) and returned; on `Err(e)` the cache is returned completely untouched
and the same error is propagated. -/
theorem entry_vacant_try_insert [DecidableEq K] (c : Cache K V) (now : Nat)
    (k : K) (f : K → Except E V) (h : c.get now k = none) :
    (Entry.or_try_insert_with c now k f).2 = [k] ∧
    (∀ v, f k = Except.ok v →
      (Entry.or_try_insert_with c now k f).1 =
        some (Except.ok v, (c.insert now k v).2)) ∧
    (∀ e, f k = Except.error e →
      (Entry.or_try_insert_with c now k f).1 = some (Except.error e, c)) := by
  have hv := entry_of_get_none h
  refine ⟨?_, ?_, ?_⟩
  · cases hf : f k <;> simp [Entry.or_try_insert_with, hv, hf]
  · intro v hf
    simp [Entry.or_try_insert_with, hv, hf, vacantEntry_insert_eq]
  · intro e hf
    simp [Entry.or_try_insert_with, hv, hf]

/-- Witness for `entry_vacant_try_insert`: populating the absent key `1` of an
empty cache with a successful producer. -/
theorem entry_vacant_try_insert_witness :
    (Entry.or_try_insert_with (E := Unit) (Cache.keep_last : Cache Nat Nat) 0 1
        (fun n => Except.ok (n + 100))).2 = [1] ∧
    (Entry.or_try_insert_with (E := Unit) (Cache.keep_last : Cache Nat Nat) 0 1
        (fun n => Except.ok (n + 100))).1 =
      some (Except.ok 101, ((Cache.keep_last : Cache Nat Nat).insert 0 1 101).2) :=
  ⟨(entry_vacant_try_insert (Cache.keep_last : Cache Nat Nat) 0 1
      (fun n => Except.ok (n + 100)) (by decide)).1,
   (entry_vacant_try_insert (Cache.keep_last : Cache Nat Nat) 0 1
      (fun n => Except.ok (n + 100)) (by decide)).2.1 101 rfl⟩

/-- C10: `entry` evaluates freshness twice — `get` at the first clock read and
`get_mut(...).unwrap()` at the second. Provided the entry's value has not
expired by the second read (in particular when both reads see the same clock),
the `unwrap` cannot panic. -/
theorem entry_double_check_no_panic [DecidableEq K] (c : Cache K V)
    (now1 now2 : Nat) (k : K)
    (h : ∀ v t, mapLookup c.hash_map k = some (v, t) →
      Cache.has_expired c.expiry_duration now2 t = false) :
    c.entry now1 now2 k ≠ none := by
  unfold Cache.entry
  by_cases hs : (c.get now1 k).isSome
  · obtain ⟨v, hv⟩ := Option.isSome_iff_exists.mp hs
    obtain ⟨t, hm, hx1⟩ := (get_eq_some_iff c now1 k v).mp hv
    have h2 := h v t hm
    rw [get_mut_eq_get]
    simp [hs, Cache.get, hm, h2, hx1]
  · simp [hs]

/-- Witness for `entry_double_check_no_panic` on a no-expiry cache, where the
second freshness check can never fail. -/
theorem entry_double_check_no_panic_witness :
    sampleKeepLast.entry 0 7 1 ≠ none :=
  entry_double_check_no_panic sampleKeepLast 0 7 1 (fun _ _ _ => rfl)

/-! ### Lemmas about the batch partition, merge and collect passes -/

theorem partitionAux_snd [DecidableEq K] (c : Cache K V) (now : Nat)
    (ks : List K) (vals : List (K × V)) (mis : List K) :
    (partitionAux c now ks vals mis).2 =
      mis ++ ks.filter (fun k => (c.get now k).isNone) := by
  induction ks generalizing vals mis with
  | nil => simp [partitionAux]
  | cons k ks ih =>
    cases hg : c.get now k with
    | some v => simp [partitionAux, hg, ih, List.filter_cons]
    | none => simp [partitionAux, hg, ih, List.filter_cons]

theorem missingOf_eq_filter [DecidableEq K] (c : Cache K V) (now : Nat)
    (keys : List K) :
    missingOf c now keys = keys.filter (fun k => (c.get now k).isNone) := by
  simp [missingOf, partitionKeys, partitionAux_snd]

theorem partitionAux_fst_of_get_some [DecidableEq K] (c : Cache K V) (now : Nat)
    (ks : List K) (vals : List (K × V)) (mis : List K) (k : K) (v : V)
    (h : c.get now k = some v) :
    vLookup (partitionAux c now ks vals mis).1 k =
      if k ∈ ks then some v else vLookup vals k := by
  induction ks generalizing vals mis with
  | nil => simp [partitionAux]
  | cons k1 ks ih =>
    by_cases hk : k = k1
    · subst hk
      simp [partitionAux, h, ih, vLookup_vInsert]
    · have hk' : ¬k1 = k := fun h' => hk h'.symm
      cases hg : c.get now k1 with
      | some v1 => simp [partitionAux, hg, ih, vLookup_vInsert, hk, hk']
      | none => simp [partitionAux, hg, ih, hk]

theorem partitionAux_fst_of_get_none [DecidableEq K] (c : Cache K V) (now : Nat)
    (ks : List K) (vals : List (K × V)) (mis : List K) (k : K)
    (h : c.get now k = none) :
    vLookup (partitionAux c now ks vals mis).1 k = vLookup vals k := by
  induction ks generalizing vals mis with
  | nil => simp [partitionAux]
  | cons k1 ks ih =>
    cases hg : c.get now k1 with
    | some v1 =>
      have hk : ¬k1 = k := fun he => by rw [he, h] at hg; exact Option.noConfusion hg
      simp [partitionAux, hg, ih, vLookup_vInsert, hk]
    | none => simp [partitionAux, hg, ih]

theorem mergeMissing_cons [DecidableEq K] (c : Cache K V) (now : Nat)
    (p : K × V) (ps : List (K × V)) (vals : List (K × V)) :
    mergeMissing c now (p :: ps) vals =
      mergeMissing (c.insert now p.1 p.2).2 now ps (vInsert vals p.1 p.2) := rfl

theorem mergeMissing_lookup_preserved [DecidableEq K] (c : Cache K V) (now : Nat)
    (ps : List (K × V)) (vals : List (K × V)) (k : K)
    (h : (vLookup vals k).isSome) :
    (vLookup (mergeMissing c now ps vals).2 k).isSome := by
  induction ps generalizing c vals with
  | nil => exact h
  | cons p ps ih =>
    rw [mergeMissing_cons]
    apply ih
    rw [vLookup_vInsert]
    by_cases hk : p.1 = k <;> simp [hk, h]

theorem mergeMissing_lookup_mem [DecidableEq K] (c : Cache K V) (now : Nat)
    (ps : List (K × V)) (vals : List (K × V)) (k : K)
    (h : k ∈ ps.map Prod.fst) :
    (vLookup (mergeMissing c now ps vals).2 k).isSome := by
  induction ps generalizing c vals with
  | nil => simp at h
  | cons p ps ih =>
    rw [mergeMissing_cons]
    rw [List.map_cons, List.mem_cons] at h
    rcases h with hk | hk
    · apply mergeMissing_lookup_preserved
      rw [vLookup_vInsert]
      simp [hk]
    · exact ih _ _ hk

theorem collectValues_isSome [DecidableEq K] (vals : List (K × V)) (ks : List K)
    (h : ∀ k ∈ ks, (vLookup vals k).isSome) :
    ∃ out, collectValues vals ks = some out := by
  induction ks with
  | nil => exact ⟨[], rfl⟩
  | cons k ks ih =>
    obtain ⟨v, hv⟩ := Option.isSome_iff_exists.mp (h k (List.mem_cons_self k ks))
    obtain ⟨out, hout⟩ := ih (fun k' hk' => h k' (List.mem_cons_of_mem _ hk'))
    exact ⟨v :: out, by simp [collectValues, hv, hout]⟩

theorem collectValues_eq_mapM [DecidableEq K] (vals : List (K × V)) (ks : List K)
    (g : K → Option V) (h : ∀ k ∈ ks, vLookup vals k = g k) :
    collectValues vals ks = ks.mapM g := by
  induction ks with
  | nil => rw [List.mapM_nil]; rfl
  | cons k ks ih =>
    rw [List.mapM_cons, ← ih (fun k' hk' => h k' (List.mem_cons_of_mem _ hk')),
      ← h k (List.mem_cons_self k ks)]
    cases hv : vLookup vals k with
    | none => simp [collectValues, hv]
    | some v =>
      cases hout : collectValues vals ks with
      | none => simp [collectValues, hv, hout]
      | some out => simp [collectValues, hv, hout]

/-! ### Batch entries view -/

/-- C4: when every requested key is fresh, the batch producer is never invoked
(empty invocation trace) and the call returns the fresh values in exactly the
caller's original key order, duplicates included, with the cache unchanged. -/
theorem entries_all_fresh_skips_producer [DecidableEq K] (c : Cache K V)
    (now : Nat) (keys : List K) (f : List K → Except E (List V))
    (hfresh : ∀ k ∈ keys, (c.get now k).isSome) :
    ∃ out, keys.mapM (fun k => c.get now k) = some out ∧
      Entries.or_try_insert_with c now keys f = (some (Except.ok out, c), []) := by
  have hmis : (partitionKeys c now keys).2 = [] := by
    have := missingOf_eq_filter c now keys
    rw [missingOf] at this
    rw [this]
    rw [List.filter_eq_nil_iff]
    intro k hk
    have := hfresh k hk
    simp only [Option.isNone_iff_eq_none]
    intro hnone
    rw [hnone] at this
    exact Bool.noConfusion this
  have hcollect : collectValues (partitionKeys c now keys).1 keys =
      keys.mapM (fun k => c.get now k) := by
    apply collectValues_eq_mapM
    intro k hk
    obtain ⟨v, hv⟩ := Option.isSome_iff_exists.mp (hfresh k hk)
    rw [hv, partitionKeys, partitionAux_fst_of_get_some c now keys [] [] k v hv]
    simp [hk]
  obtain ⟨out, hout⟩ := collectValues_isSome (partitionKeys c now keys).1 keys
    (by
      intro k hk
      obtain ⟨v, hv⟩ := Option.isSome_iff_exists.mp (hfresh k hk)
      rw [partitionKeys, partitionAux_fst_of_get_some c now keys [] [] k v hv]
      simp [hk])
  refine ⟨out, by rw [← hcollect]; exact hout, ?_⟩
  simp [Entries.or_try_insert_with, hmis, hout]

/-- Witness for `entries_all_fresh_skips_producer`: both occurrences of the
fresh key `1` are served from the cache and the always-failing producer is
never called. -/
theorem entries_all_fresh_skips_producer_witness :
    ∃ out, ([1, 1] : List Nat).mapM (fun k => sampleExpiring.get 5 k) = some out ∧
      Entries.or_try_insert_with (E := Unit) sampleExpiring 5 [1, 1]
          (fun _ => Except.error ()) =
        (some (Except.ok out, sampleExpiring), []) :=
  entries_all_fresh_skips_producer sampleExpiring 5 [1, 1]
    (fun _ => Except.error ()) (by decide)

/-- C2: if the batch producer returns an error, that error is propagated and
the cache is returned exactly as it was before the call — no key of the
missing subset is inserted, no value or timestamp changes. The trace shows
the single producer invocation with the missing list. -/
theorem entries_producer_error_atomic [DecidableEq K] (c : Cache K V)
    (now : Nat) (keys : List K) (f : List K → Except E (List V)) (e : E)
    (hne : missingOf c now keys ≠ [])
    (herr : f (missingOf c now keys) = Except.error e) :
    Entries.or_try_insert_with c now keys f =
      (some (Except.error e, c), [missingOf c now keys]) := by
  unfold missingOf at hne herr ⊢
  cases hmk : (partitionKeys c now keys).2 with
  | nil => exact absurd hmk hne
  | cons a as =>
    rw [hmk] at herr
    simp [Entries.or_try_insert_with, hmk, herr]

/-- Witness for `entries_producer_error_atomic`: a failing producer for the
absent key `2` leaves `sampleExpiring` untouched. -/
theorem entries_producer_error_atomic_witness :
    Entries.or_try_insert_with sampleExpiring 5 [1, 2]
        (fun _ => Except.error "bus failure") =
      (some (Except.error "bus failure", sampleExpiring),
        [missingOf sampleExpiring 5 [1, 2]]) :=
  entries_producer_error_atomic sampleExpiring 5 [1, 2]
    (fun _ => Except.error "bus failure") "bus failure" (by decide) rfl

/-- C3: if the batch producer succeeds but returns a list whose length differs
from the missing list, the `assert_eq!` aborts the call (the panic outcome
`none`) — never a recoverable error and never a silently misassigned success;
under the matching-length contract the fatal branch is unreachable and the
call returns a success. -/
theorem entries_length_mismatch_fatal [DecidableEq K] (c : Cache K V)
    (now : Nat) (keys : List K) (f : List K → Except E (List V))
    (hne : missingOf c now keys ≠ []) :
    (∀ vs, f (missingOf c now keys) = Except.ok vs →
      vs.length ≠ (missingOf c now keys).length →
      (Entries.or_try_insert_with c now keys f).1 = none) ∧
    (∀ vs, f (missingOf c now keys) = Except.ok vs →
      vs.length = (missingOf c now keys).length →
      ∃ out c', (Entries.or_try_insert_with c now keys f).1 =
        some (Except.ok out, c')) := by
  constructor
  · intro vs hvs hlen
    unfold missingOf at hne hvs hlen
    cases hmk : (partitionKeys c now keys).2 with
    | nil => exact absurd hmk hne
    | cons a as =>
      rw [hmk] at hvs hlen
      have hx : ¬(as.length + 1 = vs.length) := fun hh =>
        hlen (hh.symm.trans (List.length_cons a as).symm)
      simp [Entries.or_try_insert_with, hmk, hvs, hx]
  · intro vs hvs hlen
    unfold missingOf at hne hvs hlen
    have hall : ∀ k ∈ keys,
        (vLookup (mergeMissing c now
          (((partitionKeys c now keys).2).zip vs) (partitionKeys c now keys).1).2
          k).isSome := by
      intro k hk
      cases hg : c.get now k with
      | some v =>
        apply mergeMissing_lookup_preserved
        rw [partitionKeys, partitionAux_fst_of_get_some c now keys [] [] k v hg]
        simp [hk]
      | none =>
        apply mergeMissing_lookup_mem
        rw [List.map_fst_zip _ _ (le_of_eq hlen.symm)]
        have := missingOf_eq_filter c now keys
        rw [missingOf] at this
        rw [this, List.mem_filter]
        exact ⟨hk, by simp [hg]⟩
    obtain ⟨out, hout⟩ := collectValues_isSome _ keys hall
    cases hmk : (partitionKeys c now keys).2 with
    | nil => exact absurd hmk hne
    | cons a as =>
      rw [hmk] at hvs hlen
      rw [hmk] at hout
      refine ⟨out, (mergeMissing c now ((a :: as).zip vs)
        (partitionKeys c now keys).1).1, ?_⟩
      simp [Entries.or_try_insert_with, hmk, hvs, hlen.symm, hout]

/-- Witness for `entries_length_mismatch_fatal`: a producer answering two
values for the single missing key `1` makes the call abort. -/
theorem entries_length_mismatch_fatal_witness :
    missingOf (Cache.keep_last : Cache Nat Nat) 0 [1] ≠ [] ∧
    (Entries.or_try_insert_with (E := Unit) (Cache.keep_last : Cache Nat Nat) 0
        [1] (fun _ => Except.ok [5, 6])).1 = none :=
  ⟨by decide,
   (entries_length_mismatch_fatal (Cache.keep_last : Cache Nat Nat) 0 [1]
      (fun _ => Except.ok [5, 6]) (by decide)).1 [5, 6] rfl (by decide)⟩

/-- C1 fails on the code: requesting `[11, 11]` when `11` is vacant invokes
the batch producer once, but with `[11, 11]` — the partition loop pushes a
vacant key once per requested occurrence — not with the collapsed `[11]`
claimed by the spec. -/
theorem entries_duplicate_keys_counterexample :
    (Entries.or_try_insert_with (E := Unit) (Cache.keep_last : Cache Nat Nat) 0
        [11, 11] (fun ks => Except.ok (ks.map (fun k => k * 10)))).2 ≠ [[11]] ∧
    (Entries.or_try_insert_with (E := Unit) (Cache.keep_last : Cache Nat Nat) 0
        [11, 11] (fun ks => Except.ok (ks.map (fun k => k * 10)))).2 =
      [[11, 11]] := by
  decide

/-- C1 amended: requesting `[k, k]` when `k` is vacant invokes the producer
exactly once, receiving one occurrence of `k` per requested occurrence
(`[k, k]`, not `[k]`); the producer must return one value per occurrence, the
value produced for the last occurrence overwrites the earlier one, and the
output repeats that last value at every duplicate position. -/
theorem entries_duplicate_keys_amended [DecidableEq K] (c : Cache K V)
    (now : Nat) (k : K) (v1 v2 : V) (f : List K → Except E (List V))
    (h : c.get now k = none) (hf : f [k, k] = Except.ok [v1, v2]) :
    Entries.or_try_insert_with c now [k, k] f =
      (some (Except.ok [v2, v2], ((c.insert now k v1).2.insert now k v2).2),
        [[k, k]]) := by
  have hp : partitionKeys c now [k, k] = ([], [k, k]) := by
    simp [partitionKeys, partitionAux, h]
  simp [Entries.or_try_insert_with, hp, hf, mergeMissing, vInsert, collectValues,
    vLookup]

/-- Witness for `entries_duplicate_keys_amended`: a producer answering
`[110, 111]` for the two requested occurrences of the vacant key `11`; the
output is `[111, 111]`. -/
theorem entries_duplicate_keys_amended_witness :
    Entries.or_try_insert_with (E := Unit) (Cache.keep_last : Cache Nat Nat) 0
        [11, 11] (fun _ => Except.ok [110, 111]) =
      (some (Except.ok [111, 111],
        (((Cache.keep_last : Cache Nat Nat).insert 0 11 110).2.insert 0 11 111).2),
        [[11, 11]]) :=
  entries_duplicate_keys_amended (Cache.keep_last : Cache Nat Nat) 0 11 110 111
    (fun _ => Except.ok [110, 111]) (by decide) rfl
